import Mathlib

/-!
Shallow embedding of the transcript chunking and timestamp-alignment engine
of `src/video_chunks_generator.py` (class `VideoChunker`, plus the pure
decision fragments of the two transcript processors).

Python strings are modelled as `List Char` (a Python `str` is a sequence of
code points); Python `int` as `Int` (offsets that are always non-negative as
`Nat`); Python's regex class `\s` and `str.strip()` whitespace as
`Char.isWhitespace`.
-/

namespace VideoChunks

/-- One timestamped transcript segment, the uniform shape produced by the
transcript processors: `{text, start_ms, end_ms}`. -/
structure Segment where
  text : List Char
  start_ms : Int
  end_ms : Int
deriving DecidableEq

/-- One entry of `char_to_time_map`: a half-open character range
`[startChar, endChar)` of the concatenated full text paired with the source
segment's time bounds (a CharTimeSpan). -/
structure Span where
  startChar : Nat
  endChar : Nat
  startMs : Int
  endMs : Int
deriving DecidableEq

/-- The `metadata` dictionary attached to each chunk. -/
structure Metadata where
  video_id : List Char
  video_title : List Char
  timestamp_link : Option (List Char)
deriving DecidableEq

/-- One output chunk record of `chunk_transcript`. -/
structure Chunk where
  chunk_index : Nat
  text : List Char
  start_ms : Int
  end_ms : Int
  metadata : Metadata
deriving DecidableEq

/-- `full_text`: the concatenation of every segment's text followed by a
single space (`full_text += text + " "`, lines 209-217). -/
def fullText : List Segment → List Char
  | [] => []
  | s :: rest => s.text ++ ' ' :: fullText rest

/-- `char_to_time_map` (lines 210-221): one span per segment, in order.
Segment `i` occupies `[ofs, ofs + len(text_i) + 1)` where `ofs` is the
running character index, paired with the segment's `(start_ms, end_ms)`. -/
def charToTimeMap : List Segment → Nat → List Span
  | [], _ => []
  | s :: rest, ofs =>
    { startChar := ofs, endChar := ofs + s.text.length + 1,
      startMs := s.start_ms, endMs := s.end_ms }
      :: charToTimeMap rest (ofs + s.text.length + 1)

/-- Whether the previously scanned character is sentence-terminal
punctuation (`.`, `?`, `!`), the lookbehind of the regex
`(?<=[.?!])\s+` (line 225). -/
def isSentencePunct : Option Char → Bool
  | some c => c = '.' ∨ c = '?' ∨ c = '!'
  | none => false

/-- `re.split(r'(?<=[.?!])\s+', full_text)` (line 226) as a left-to-right
scan: a maximal whitespace run whose first character is preceded by `.`,
`?` or `!` is a separator.  `prev` is the previously scanned character,
`inSep` whether the scan is inside a separator run, `cur` the current piece
accumulated in reverse. -/
def splitRe (prev : Option Char) (inSep : Bool) (cs : List Char) (cur : List Char) :
    List (List Char) :=
  match cs with
  | [] => [cur.reverse]
  | c :: rest =>
    if inSep then
      if c.isWhitespace then splitRe (some c) true rest cur
      else splitRe (some c) false rest [c]
    else
      if c.isWhitespace ∧ isSentencePunct prev then
        cur.reverse :: splitRe (some c) true rest []
      else
        splitRe (some c) false rest (c :: cur)

/-- Python `str.strip()`: drop whitespace from both ends. -/
def strip (cs : List Char) : List Char :=
  ((cs.dropWhile Char.isWhitespace).reverse.dropWhile Char.isWhitespace).reverse

/-- `[s.strip() for s in re.split(...) if s.strip()]` (line 226): split the
full text into sentences, trim each, drop empty results. -/
def sentencesOfText (ft : List Char) : List (List Char) :=
  ((splitRe none false ft []).map strip).filter (fun s => !s.isEmpty)

/-- Sentences of the reconstructed full text of a segment list. -/
def sentencesOf (segs : List Segment) : List (List Char) :=
  sentencesOfText (fullText segs)

/-- Fuel-indexed worker for `groupsOf`; the fuel is an upper bound on the
list length, so the `(0, _ :: _)` case is never reached from `groupsOf`. -/
def groupsOfGo (k : Nat) : Nat → List α → List (List α)
  | _, [] => []
  | 0, _ :: _ => []
  | n + 1, x :: xs => (x :: xs.take (k - 1)) :: groupsOfGo k n (xs.drop (k - 1))

/-- `for i in range(0, len(sentences), k): sentences[i:i+k]` (lines 232-233)
for `k >= 1`: consecutive groups of `k` elements, last group possibly
shorter. -/
def groupsOf (k : Nat) (l : List α) : List (List α) :=
  groupsOfGo k l.length l

/-- The Python space-join of a sentence group (line 234). -/
def joinSp : List (List Char) → List Char
  | [] => []
  | [s] => s
  | s :: ss => s ++ ' ' :: joinSp ss

/-- Worker for `findFrom`: try each position `i, i+1, ...` of the remaining
haystack for an occurrence of `needle`. -/
def findFromGo (needle : List Char) : List Char → Nat → Option Nat
  | [], i => if needle.isEmpty then some i else none
  | c :: rest, i =>
    if (c :: rest).take needle.length = needle then some i
    else findFromGo needle rest (i + 1)

/-- `full_text.index(chunk_text, start)` (line 238): the least position
`>= start` at which `needle` occurs in `hay`, or `none` (the `ValueError`
branch). -/
def findFrom (needle hay : List Char) (start : Nat) : Option Nat :=
  findFromGo needle (hay.drop start) start

/-- The start-time scan (lines 250-253): the `start_ms` of the first span
whose `[startChar, endChar)` range contains `c`, or the `-1` sentinel. -/
def findStartMs : List Span → Nat → Int
  | [], _ => -1
  | sp :: rest, c =>
    if sp.startChar ≤ c ∧ c < sp.endChar then sp.startMs else findStartMs rest c

/-- The end-time scan body (lines 256-259): the `end_ms` of the first span
in the given (already reversed) list with `startChar < c`, or `-1`. -/
def findEndMs : List Span → Nat → Int
  | [], _ => -1
  | sp :: rest, c =>
    if sp.startChar < c then sp.endMs else findEndMs rest c

/-- Start-time resolution with the defensive fallback of line 261: if the
scan left the `-1` sentinel, use the first segment's `start_ms` (`fb`). -/
def resolveStartMs (spans : List Span) (fb : Int) (c : Nat) : Int :=
  if findStartMs spans c = -1 then fb else findStartMs spans c

/-- End-time resolution (reversed scan, line 256) with the fallback of
line 262: if the scan left `-1`, use the last segment's `end_ms` (`fb`). -/
def resolveEndMs (spans : List Span) (fb : Int) (c : Nat) : Int :=
  if findEndMs spans.reverse c = -1 then fb else findEndMs spans.reverse c

/-- The platform watch URL
`f"https://www.youtube.com/watch?v={video_id}&t={start_ms // 1000}s"`
(line 197), with the seconds value already divided. -/
def watchUrl (video_id : List Char) (secs : Int) : List Char :=
  ("https://www.youtube.com/watch?v=").toList ++ video_id
    ++ ("&t=").toList ++ (toString secs).toList ++ [ 's' ]

/-- `_generate_timestamp_link` (lines 194-198): a watch URL when the id is
truthy and exactly 11 characters long, else `None`.  Python `//` is floor
division, hence `Int.fdiv`. -/
def generateTimestampLink (video_id : List Char) (start_ms : Int) : Option (List Char) :=
  if !video_id.isEmpty ∧ video_id.length = 11 then
    some (watchUrl video_id (Int.fdiv start_ms 1000))
  else none

/-- The per-group loop body of `chunk_transcript` (lines 232-274): locate
each group's chunk text from the cursor `pos` (falling back to `pos` when
not found), resolve times against `spans`, emit the chunk record, and
continue with the cursor set to the located start (`last_char_pos =
chunk_start_char`, line 244) and the next index. -/
def mkChunks (ft : List Char) (spans : List Span) (fbStart fbEnd : Int)
    (vid vtitle : List Char) : List (List (List Char)) → Nat → Nat → List Chunk
  | [], _, _ => []
  | g :: gs, pos, idx =>
    let ct := joinSp g
    let sc := (findFrom ct ft pos).getD pos
    let sm := resolveStartMs spans fbStart sc
    let em := resolveEndMs spans fbEnd (sc + ct.length)
    { chunk_index := idx, text := ct, start_ms := sm, end_ms := em,
      metadata := { video_id := vid, video_title := vtitle,
                    timestamp_link := generateTimestampLink vid sm } }
      :: mkChunks ft spans fbStart fbEnd vid vtitle gs sc (idx + 1)

/-- The `(chunk_start_char, chunk_end_char)` pair each loop iteration uses
(lines 237-244), extracted from the same cursor recursion as `mkChunks`. -/
def chunkCharSpans (ft : List Char) : List (List (List Char)) → Nat → List (Nat × Nat)
  | [], _ => []
  | g :: gs, pos =>
    let ct := joinSp g
    let sc := (findFrom ct ft pos).getD pos
    (sc, sc + ct.length) :: chunkCharSpans ft gs sc

/-- First segment, used for the line-261 fallback (`transcript_segments[0]`). -/
def headSeg (segs : List Segment) : Segment :=
  segs.headD { text := [], start_ms := 0, end_ms := 0 }

/-- Last segment, used for the line-262 fallback (`transcript_segments[-1]`). -/
def lastSeg (segs : List Segment) : Segment :=
  segs.getLastD { text := [], start_ms := 0, end_ms := 0 }

/-- `VideoChunker.chunk_transcript` (lines 200-277) for a chunker configured
with `sentences_per_chunk = k` (`k >= 1` after the constructor check): empty
input returns the empty list (lines 204-206); otherwise build the full text
and span map, split into sentences, group them, and emit one chunk per
group. -/
def chunk_transcript (k : Nat) (segs : List Segment)
    (video_id video_title : List Char) : List Chunk :=
  match segs with
  | [] => []
  | s0 :: rest =>
    mkChunks (fullText (s0 :: rest)) (charToTimeMap (s0 :: rest) 0)
      (headSeg (s0 :: rest)).start_ms (lastSeg (s0 :: rest)).end_ms
      video_id video_title
      (groupsOf k (sentencesOf (s0 :: rest))) 0 0

/-- `VideoChunker.__init__` (lines 183-192): raises `ValueError` exactly
when `sentences_per_chunk <= 0`, otherwise stores the configuration. -/
def videoChunkerInit (sentences_per_chunk : Int) : Except (List Char) Int :=
  if sentences_per_chunk ≤ 0 then
    Except.error (("sentences_per_chunk pozitif bir tamsayi olmalidir.").toList)
  else Except.ok sentences_per_chunk

/-- The empty-transcript decision of `OnlineVideoProcessor.get_transcript`
(lines 122-132): once the VTT subtitles have been parsed into `parsed`, an
empty parse raises `ValueError` which the handler turns into the
`(None, None, None)` failure triple (`none` here); otherwise the segments
are returned with the video title and id. -/
def onlineTranscriptResult (parsed : List Segment) (title vid : List Char) :
    Option (List Segment × List Char × List Char) :=
  if parsed.isEmpty then none else some (parsed, title, vid)

/-- The result construction of `LocalVideoProcessor.get_transcript`
(lines 156-170): each Whisper segment (text with millisecond bounds, the
float-seconds conversion abstracted into the input) is stripped and
collected, and the triple is returned unconditionally — there is no
empty-list check on this path. -/
def localTranscriptResult (ws : List (List Char × Int × Int)) (title vid : List Char) :
    Option (List Segment × List Char × List Char) :=
  some (ws.map (fun w => { text := strip w.1, start_ms := w.2.1, end_ms := w.2.2 }),
        title, vid)

/-- Step 5 of the spec (start side), written from the spec's words: the
`start_ms` of the first CharTimeSpan whose `[start_char, end_char)` range
contains `c`; if no span qualifies, the fallback `fb`. -/
def specStartMs (spans : List Span) (fb : Int) (c : Nat) : Int :=
  match spans.find? (fun sp => decide (sp.startChar ≤ c ∧ c < sp.endChar)) with
  | some sp => sp.startMs
  | none => fb

/-- Step 5 of the spec (end side), written from the spec's words: the
`end_ms` of the last CharTimeSpan (scanning from the end) whose
`start_char < c`; if no span qualifies, the fallback `fb`. -/
def specEndMs (spans : List Span) (fb : Int) (c : Nat) : Int :=
  match spans.reverse.find? (fun sp => decide (sp.startChar < c)) with
  | some sp => sp.endMs
  | none => fb

/-- Contiguity of a span list starting at a given offset: each span starts
where the previous one ended. -/
def contiguousFrom : Nat → List Span → Prop
  | _, [] => True
  | ofs, sp :: rest => sp.startChar = ofs ∧ contiguousFrom sp.endChar rest

/-- Scenario A segments:
`[{"Hello world.", 0, 1000}, {"This is a test.", 1000, 2500}]`. -/
def segsA : List Segment :=
  [ { text := ("Hello world.").toList, start_ms := 0, end_ms := 1000 },
    { text := ("This is a test.").toList, start_ms := 1000, end_ms := 2500 } ]

/-- Duplicate-sentence input: a single segment whose text repeats the same
sentence, used to exercise the search cursor. -/
def segsDup : List Segment :=
  [ { text := ("A. A.").toList, start_ms := 0, end_ms := 10 } ]

/-- Input with a `-1` start time on the second segment (violating the
non-negative input contract) that a span scan can report. -/
def segsNeg : List Segment :=
  [ { text := ("A.").toList, start_ms := 5, end_ms := 6 },
    { text := ("B.").toList, start_ms := -1, end_ms := 7 } ]

/-- Contract-satisfying but time-unordered input: the second segment lies
earlier in time than the first. -/
def segsUnord : List Segment :=
  [ { text := ("A.").toList, start_ms := 100, end_ms := 200 },
    { text := ("B.").toList, start_ms := 0, end_ms := 50 } ]

/-- Scenario E single-segment input with `start_ms = 65000`. -/
def segsE : List Segment :=
  [ { text := ("Hi there.").toList, start_ms := 65000, end_ms := 66000 } ]

/-- An 11-character platform id. -/
def vid11 : List Char := ("ABCDEFGHIJK").toList

/-- A 6-character id. -/
def vid6 : List Char := ("abc123").toList

/-- Scenario A chunk 0 as emitted with empty id and title. -/
def chunkA0 : Chunk :=
  { chunk_index := 0, text := ("Hello world.").toList, start_ms := 0, end_ms := 1000,
    metadata := { video_id := [], video_title := [], timestamp_link := none } }

/-- Scenario E chunk 0 as emitted for the 11-character id. -/
def chunkE0 : Chunk :=
  { chunk_index := 0, text := ("Hi there.").toList, start_ms := 65000, end_ms := 66000,
    metadata := { video_id := vid11, video_title := [],
                  timestamp_link := some (watchUrl vid11 65) } }

/-- Scenario E chunk 0 as emitted for the 6-character id. -/
def chunkE0no : Chunk :=
  { chunk_index := 0, text := ("Hi there.").toList, start_ms := 65000, end_ms := 66000,
    metadata := { video_id := vid6, video_title := [], timestamp_link := none } }

/-! ### Helper lemmas: grouping -/

theorem groupsOfGo_congr {α : Type} (k : Nat) :
    ∀ (n m : Nat) (l : List α), l.length ≤ n → l.length ≤ m →
      groupsOfGo k n l = groupsOfGo k m l := by
  intro n
  induction n with
  | zero =>
    intro m l hn _
    have hl : l = [] := List.eq_nil_of_length_eq_zero (Nat.le_zero.mp hn)
    subst hl
    simp [groupsOfGo]
  | succ n ih =>
    intro m l hn hm
    match l, m with
    | [], _ => simp [groupsOfGo]
    | x :: xs, 0 => simp at hm
    | x :: xs, m + 1 =>
      simp only [groupsOfGo, List.cons.injEq, true_and]
      apply ih
      · rw [List.length_drop]
        simp only [List.length_cons] at hn
        omega
      · rw [List.length_drop]
        simp only [List.length_cons] at hm
        omega

theorem groupsOf_nil {α : Type} (k : Nat) : groupsOf k ([] : List α) = [] := rfl

theorem groupsOf_cons {α : Type} (k : Nat) (x : α) (xs : List α) :
    groupsOf k (x :: xs) = (x :: xs.take (k - 1)) :: groupsOf k (xs.drop (k - 1)) := by
  show groupsOfGo k (xs.length + 1) (x :: xs) = _
  simp only [groupsOfGo, List.cons.injEq, true_and]
  apply groupsOfGo_congr
  · rw [List.length_drop]; omega
  · exact Nat.le_refl _

theorem groupsOf_eq_nil_iff {α : Type} (k : Nat) (l : List α) :
    groupsOf k l = [] ↔ l = [] := by
  cases l with
  | nil => simp [groupsOf_nil]
  | cons x xs => rw [groupsOf_cons]; simp

theorem groupsOf_join_aux {α : Type} (k : Nat) :
    ∀ (n : Nat) (l : List α), l.length ≤ n → (groupsOf k l).flatten = l := by
  intro n
  induction n with
  | zero =>
    intro l h
    have hl : l = [] := List.eq_nil_of_length_eq_zero (Nat.le_zero.mp h)
    subst hl; rfl
  | succ n ih =>
    intro l h
    match l with
    | [] => rfl
    | x :: xs =>
      rw [groupsOf_cons, List.flatten_cons,
        ih (xs.drop (k - 1)) (by rw [List.length_drop]; simp at h; omega)]
      simp [List.take_append_drop]

/-- The groups partition the input: their concatenation is the input list. -/
theorem groupsOf_join {α : Type} (k : Nat) (l : List α) : (groupsOf k l).flatten = l :=
  groupsOf_join_aux k l.length l (Nat.le_refl _)

theorem groupsOf_ne_nil_aux {α : Type} (k : Nat) :
    ∀ (n : Nat) (l : List α), l.length ≤ n → ∀ g ∈ groupsOf k l, g ≠ [] := by
  intro n
  induction n with
  | zero =>
    intro l h
    have hl : l = [] := List.eq_nil_of_length_eq_zero (Nat.le_zero.mp h)
    subst hl; intro g hg; simp [groupsOf_nil] at hg
  | succ n ih =>
    intro l h g hg
    match l with
    | [] => simp [groupsOf_nil] at hg
    | x :: xs =>
      rw [groupsOf_cons] at hg
      rcases List.mem_cons.mp hg with h1 | h2
      · subst h1; simp
      · exact ih (xs.drop (k - 1)) (by rw [List.length_drop]; simp at h; omega) g h2

/-- Every group is non-empty. -/
theorem groupsOf_ne_nil {α : Type} (k : Nat) (l : List α) :
    ∀ g ∈ groupsOf k l, g ≠ [] :=
  groupsOf_ne_nil_aux k l.length l (Nat.le_refl _)

theorem groupsOf_length_aux {α : Type} (k : Nat) (hk : 1 ≤ k) :
    ∀ (n : Nat) (l : List α), l.length ≤ n →
      (groupsOf k l).length = (l.length + k - 1) / k := by
  intro n
  induction n with
  | zero =>
    intro l h
    have hl : l = [] := List.eq_nil_of_length_eq_zero (Nat.le_zero.mp h)
    subst hl
    simp [groupsOf_nil, Nat.div_eq_of_lt (show k - 1 < k by omega)]
  | succ n ih =>
    intro l h
    match l with
    | [] => simp [groupsOf_nil, Nat.div_eq_of_lt (show k - 1 < k by omega)]
    | x :: xs =>
      rw [groupsOf_cons, List.length_cons,
        ih (xs.drop (k - 1)) (by rw [List.length_drop]; simp at h; omega)]
      rw [List.length_drop]
      have hrhs : (x :: xs).length + k - 1 = xs.length + k := by
        simp only [List.length_cons]; omega
      rw [hrhs, Nat.add_div_right _ (show 0 < k by omega)]
      rcases le_or_lt (k - 1) xs.length with hle | hlt
      · have : xs.length - (k - 1) + k - 1 = xs.length := by omega
        rw [this]
      · have h0 : xs.length - (k - 1) = 0 := by omega
        rw [h0]
        rw [Nat.div_eq_of_lt (show 0 + k - 1 < k by omega),
          Nat.div_eq_of_lt (show xs.length < k by omega)]

/-- Grouping law: `ceil(S / k)` groups for `k >= 1`. -/
theorem groupsOf_length {α : Type} (k : Nat) (hk : 1 ≤ k) (l : List α) :
    (groupsOf k l).length = (l.length + k - 1) / k :=
  groupsOf_length_aux k hk l.length l (Nat.le_refl _)

theorem groupsOf_get_k_aux {α : Type} (k : Nat) (hk : 1 ≤ k) :
    ∀ (n : Nat) (l : List α), l.length ≤ n →
      ∀ (i : Nat) (g : List α), (groupsOf k l)[i]? = some g →
        i + 1 < (groupsOf k l).length → g.length = k := by
  intro n
  induction n with
  | zero =>
    intro l h
    have hl : l = [] := List.eq_nil_of_length_eq_zero (Nat.le_zero.mp h)
    subst hl; intro i g hg; simp [groupsOf_nil] at hg
  | succ n ih =>
    intro l h i g hg hnext
    match l with
    | [] => simp [groupsOf_nil] at hg
    | x :: xs =>
      rw [groupsOf_cons] at hg hnext
      match i with
      | 0 =>
        rw [List.getElem?_cons_zero] at hg
        injection hg with hg
        subst hg
        simp only [List.length_cons, List.length_take]
        simp only [List.length_cons] at hnext
        have hdrop : xs.drop (k - 1) ≠ [] := by
          intro hnil
          rw [(groupsOf_eq_nil_iff k _).mpr hnil] at hnext
          simp at hnext
        have hxs : k - 1 < xs.length := by
          by_contra hcon
          exact hdrop (List.drop_eq_nil_of_le (by omega))
        omega
      | i + 1 =>
        rw [List.getElem?_cons_succ] at hg
        simp only [List.length_cons] at hnext
        exact ih (xs.drop (k - 1)) (by rw [List.length_drop]; simp at h; omega)
          i g hg (by omega)

/-- Every group but the last has exactly `k` elements. -/
theorem groupsOf_get_k {α : Type} (k : Nat) (hk : 1 ≤ k) (l : List α)
    (i : Nat) (g : List α) (hg : (groupsOf k l)[i]? = some g)
    (hnext : i + 1 < (groupsOf k l).length) : g.length = k :=
  groupsOf_get_k_aux k hk l.length l (Nat.le_refl _) i g hg hnext

/-! ### Helper lemmas: full text and the char-to-time map -/

theorem fullText_cons (s : Segment) (rest : List Segment) :
    (fullText (s :: rest)).length = s.text.length + (fullText rest).length + 1 := by
  simp [fullText]
  omega

theorem charToTimeMap_length :
    ∀ (segs : List Segment) (ofs : Nat), (charToTimeMap segs ofs).length = segs.length := by
  intro segs
  induction segs with
  | nil => intro ofs; rfl
  | cons s rest ih => intro ofs; simp [charToTimeMap, ih]

theorem charToTimeMap_contiguous :
    ∀ (segs : List Segment) (ofs : Nat), contiguousFrom ofs (charToTimeMap segs ofs) := by
  intro segs
  induction segs with
  | nil => intro ofs; trivial
  | cons s rest ih => intro ofs; exact ⟨rfl, ih _⟩

theorem charToTimeMap_mem_bounds :
    ∀ (segs : List Segment) (ofs : Nat) (sp : Span), sp ∈ charToTimeMap segs ofs →
      ofs ≤ sp.startChar ∧ sp.startChar < sp.endChar
        ∧ sp.endChar ≤ ofs + (fullText segs).length := by
  intro segs
  induction segs with
  | nil => intro ofs sp h; simp [charToTimeMap] at h
  | cons s rest ih =>
    intro ofs sp h
    rw [charToTimeMap] at h
    rcases List.mem_cons.mp h with h1 | h2
    · subst h1
      refine ⟨Nat.le_refl _, by simp; omega, ?_⟩
      rw [fullText_cons]
      simp
      omega
    · have := ih (ofs + s.text.length + 1) sp h2
      rw [fullText_cons]
      omega

theorem charToTimeMap_cov :
    ∀ (segs : List Segment) (ofs c : Nat), ofs ≤ c → c < ofs + (fullText segs).length →
      ∃ sp ∈ charToTimeMap segs ofs, sp.startChar ≤ c ∧ c < sp.endChar := by
  intro segs
  induction segs with
  | nil => intro ofs c h1 h2; simp [fullText] at h2; omega
  | cons s rest ih =>
    intro ofs c h1 h2
    by_cases hc : c < ofs + s.text.length + 1
    · exact ⟨_, List.mem_cons_self _ _, h1, hc⟩
    · push_neg at hc
      rw [fullText_cons] at h2
      obtain ⟨sp, hmem, hsp⟩ := ih (ofs + s.text.length + 1) c hc (by omega)
      exact ⟨sp, List.mem_cons_of_mem _ hmem, hsp⟩

theorem charToTimeMap_get :
    ∀ (segs : List Segment) (ofs i : Nat) (hi : i < (charToTimeMap segs ofs).length)
      (hs : i < segs.length),
      ((charToTimeMap segs ofs).get ⟨i, hi⟩).startMs = (segs.get ⟨i, hs⟩).start_ms
      ∧ ((charToTimeMap segs ofs).get ⟨i, hi⟩).endMs = (segs.get ⟨i, hs⟩).end_ms
      ∧ ((charToTimeMap segs ofs).get ⟨i, hi⟩).endChar
          = ((charToTimeMap segs ofs).get ⟨i, hi⟩).startChar
            + (segs.get ⟨i, hs⟩).text.length + 1 := by
  intro segs
  induction segs with
  | nil => intro ofs i hi hs; simp at hs
  | cons s rest ih =>
    intro ofs i hi hs
    match i with
    | 0 => exact ⟨rfl, rfl, rfl⟩
    | i + 1 => exact ih (ofs + s.text.length + 1) i _ (Nat.lt_of_succ_lt_succ hs)

theorem charToTimeMap_pairwise_char :
    ∀ (segs : List Segment) (ofs : Nat),
      (charToTimeMap segs ofs).Pairwise (fun a b => a.endChar ≤ b.startChar) := by
  intro segs
  induction segs with
  | nil => intro ofs; simp [charToTimeMap]
  | cons s rest ih =>
    intro ofs
    rw [charToTimeMap]
    refine List.Pairwise.cons ?_ (ih _)
    intro sp hsp
    exact (charToTimeMap_mem_bounds rest _ sp hsp).1

theorem charToTimeMap_mem_time :
    ∀ (segs : List Segment) (ofs : Nat) (sp : Span), sp ∈ charToTimeMap segs ofs →
      ∃ s ∈ segs, sp.startMs = s.start_ms ∧ sp.endMs = s.end_ms := by
  intro segs
  induction segs with
  | nil => intro ofs sp h; simp [charToTimeMap] at h
  | cons s rest ih =>
    intro ofs sp h
    rw [charToTimeMap] at h
    rcases List.mem_cons.mp h with h1 | h2
    · exact ⟨s, List.mem_cons_self _ _, by subst h1; exact ⟨rfl, rfl⟩⟩
    · obtain ⟨t, hmem, ht⟩ := ih _ sp h2
      exact ⟨t, List.mem_cons_of_mem _ hmem, ht⟩

theorem charToTimeMap_pairwise_time :
    ∀ (segs : List Segment) (ofs : Nat),
      segs.Pairwise (fun a b => a.end_ms ≤ b.start_ms) →
      (charToTimeMap segs ofs).Pairwise (fun a b => a.endMs ≤ b.startMs) := by
  intro segs
  induction segs with
  | nil => intro ofs _; simp [charToTimeMap]
  | cons s rest ih =>
    intro ofs h
    rw [List.pairwise_cons] at h
    rw [charToTimeMap]
    refine List.Pairwise.cons ?_ (ih _ h.2)
    intro sp hsp
    obtain ⟨t, hmem, ht1, _⟩ := charToTimeMap_mem_time rest _ sp hsp
    simp only []
    rw [ht1]
    exact h.1 t hmem

/-! ### Helper lemmas: substring search -/

theorem findFromGo_bounds (needle : List Char) :
    ∀ (l : List Char) (i j : Nat), findFromGo needle l i = some j →
      i ≤ j ∧ j - i + needle.length ≤ l.length := by
  intro l
  induction l with
  | nil =>
    intro i j h
    rw [findFromGo] at h
    by_cases he : needle.isEmpty
    · rw [if_pos he] at h
      injection h with h
      subst h
      simp [List.isEmpty_iff.mp he]
    · rw [if_neg he] at h
      exact absurd h (by simp)
  | cons c rest ih =>
    intro i j h
    rw [findFromGo] at h
    by_cases ht : (c :: rest).take needle.length = needle
    · rw [if_pos ht] at h
      injection h with h
      subst h
      have hlen : needle.length ≤ (c :: rest).length := by
        have := congrArg List.length ht
        rw [List.length_take] at this
        omega
      simp only [List.length_cons] at hlen ⊢
      omega
    · rw [if_neg ht] at h
      have := ih (i + 1) j h
      simp only [List.length_cons]
      omega

theorem findFrom_bounds (needle hay : List Char) (pos j : Nat)
    (hpos : pos ≤ hay.length) (h : findFrom needle hay pos = some j) :
    pos ≤ j ∧ j + needle.length ≤ hay.length := by
  have := findFromGo_bounds needle (hay.drop pos) pos j h
  rw [List.length_drop] at this
  omega

/-! ### Helper lemmas: time-resolution scans -/

theorem findStartMs_eq_find? :
    ∀ (spans : List Span) (c : Nat),
      findStartMs spans c =
        match spans.find? (fun sp => decide (sp.startChar ≤ c ∧ c < sp.endChar)) with
        | some sp => sp.startMs
        | none => -1 := by
  intro spans c
  induction spans with
  | nil => rfl
  | cons sp rest ih =>
    by_cases h : sp.startChar ≤ c ∧ c < sp.endChar
    · rw [findStartMs, if_pos h, List.find?_cons_of_pos _ (by simpa using h)]
    · rw [findStartMs, if_neg h, List.find?_cons_of_neg _ (by simpa using h), ih]

theorem findEndMs_eq_find? :
    ∀ (spans : List Span) (c : Nat),
      findEndMs spans c =
        match spans.find? (fun sp => decide (sp.startChar < c)) with
        | some sp => sp.endMs
        | none => -1 := by
  intro spans c
  induction spans with
  | nil => rfl
  | cons sp rest ih =>
    by_cases h : sp.startChar < c
    · rw [findEndMs, if_pos h, List.find?_cons_of_pos _ (by simpa using h)]
    · rw [findEndMs, if_neg h, List.find?_cons_of_neg _ (by simpa using h), ih]

/-- When no span's `startMs` is the sentinel, the code's start-time
resolution agrees with step 5 of the spec. -/
theorem resolveStartMs_eq_spec (spans : List Span) (fb : Int) (c : Nat)
    (h : ∀ sp ∈ spans, sp.startMs ≠ -1) :
    resolveStartMs spans fb c = specStartMs spans fb c := by
  rw [resolveStartMs, specStartMs, findStartMs_eq_find?]
  cases hf : spans.find? (fun sp => decide (sp.startChar ≤ c ∧ c < sp.endChar)) with
  | none => simp
  | some sp =>
    have hne : sp.startMs ≠ -1 := h sp (List.mem_of_find?_eq_some hf)
    simp [hne]

/-- When no span's `endMs` is the sentinel, the code's end-time resolution
agrees with step 5 of the spec. -/
theorem resolveEndMs_eq_spec (spans : List Span) (fb : Int) (c : Nat)
    (h : ∀ sp ∈ spans, sp.endMs ≠ -1) :
    resolveEndMs spans fb c = specEndMs spans fb c := by
  rw [resolveEndMs, specEndMs, findEndMs_eq_find?]
  cases hf : spans.reverse.find? (fun sp => decide (sp.startChar < c)) with
  | none => simp
  | some sp =>
    have hne : sp.endMs ≠ -1 :=
      h sp (List.mem_reverse.mp (List.mem_of_find?_eq_some hf))
    simp [hne]

theorem findStartMs_mem_or :
    ∀ (spans : List Span) (c : Nat),
      findStartMs spans c = -1 ∨ ∃ sp ∈ spans, findStartMs spans c = sp.startMs := by
  intro spans c
  induction spans with
  | nil => left; rfl
  | cons sp rest ih =>
    by_cases h : sp.startChar ≤ c ∧ c < sp.endChar
    · right
      exact ⟨sp, List.mem_cons_self _ _, by rw [findStartMs, if_pos h]⟩
    · rw [findStartMs, if_neg h]
      rcases ih with h1 | ⟨sp', hmem, heq⟩
      · left; exact h1
      · right; exact ⟨sp', List.mem_cons_of_mem _ hmem, heq⟩

theorem findEndMs_mem_or :
    ∀ (spans : List Span) (c : Nat),
      findEndMs spans c = -1 ∨ ∃ sp ∈ spans, findEndMs spans c = sp.endMs := by
  intro spans c
  induction spans with
  | nil => left; rfl
  | cons sp rest ih =>
    by_cases h : sp.startChar < c
    · right
      exact ⟨sp, List.mem_cons_self _ _, by rw [findEndMs, if_pos h]⟩
    · rw [findEndMs, if_neg h]
      rcases ih with h1 | ⟨sp', hmem, heq⟩
      · left; exact h1
      · right; exact ⟨sp', List.mem_cons_of_mem _ hmem, heq⟩

/-- The resolved start time is either the fallback or some span's `startMs`. -/
theorem resolveStartMs_mem (spans : List Span) (fb : Int) (c : Nat) :
    resolveStartMs spans fb c = fb
    ∨ ∃ sp ∈ spans, resolveStartMs spans fb c = sp.startMs := by
  rw [resolveStartMs]
  by_cases h : findStartMs spans c = -1
  · left; rw [if_pos h]
  · rw [if_neg h]
    rcases findStartMs_mem_or spans c with h1 | h2
    · exact absurd h1 h
    · right; exact h2

/-- The resolved end time is either the fallback or some span's `endMs`. -/
theorem resolveEndMs_mem (spans : List Span) (fb : Int) (c : Nat) :
    resolveEndMs spans fb c = fb
    ∨ ∃ sp ∈ spans, resolveEndMs spans fb c = sp.endMs := by
  rw [resolveEndMs]
  by_cases h : findEndMs spans.reverse c = -1
  · left; rw [if_pos h]
  · rw [if_neg h]
    rcases findEndMs_mem_or spans.reverse c with h1 | h2
    · exact absurd h1 h
    · right
      obtain ⟨sp, hmem, heq⟩ := h2
      exact ⟨sp, List.mem_reverse.mp hmem, heq⟩

/-! ### Helper lemmas: the chunk-emitting loop -/

theorem mkChunks_length (ft : List Char) (spans : List Span) (f1 f2 : Int)
    (v t : List Char) :
    ∀ (groups : List (List (List Char))) (pos idx : Nat),
      (mkChunks ft spans f1 f2 v t groups pos idx).length = groups.length := by
  intro groups
  induction groups with
  | nil => intro pos idx; rfl
  | cons g gs ih => intro pos idx; simp [mkChunks, ih]

theorem chunkCharSpans_length (ft : List Char) :
    ∀ (groups : List (List (List Char))) (pos : Nat),
      (chunkCharSpans ft groups pos).length = groups.length := by
  intro groups
  induction groups with
  | nil => intro pos; rfl
  | cons g gs ih => intro pos; simp [chunkCharSpans, ih]

/-- Shape of the `i`-th emitted chunk: its text is the space-join of the
`i`-th group, its char span is the `i`-th cursor span, its times are the
resolved times of that span, and its metadata carries the id, title and
derived link. -/
theorem mkChunks_getElem? (ft : List Char) (spans : List Span) (f1 f2 : Int)
    (v t : List Char) :
    ∀ (groups : List (List (List Char))) (pos idx i : Nat) (ch : Chunk),
      (mkChunks ft spans f1 f2 v t groups pos idx)[i]? = some ch →
      ∃ g cs, groups[i]? = some g ∧ (chunkCharSpans ft groups pos)[i]? = some cs
        ∧ cs.2 = cs.1 + (joinSp g).length
        ∧ ch = { chunk_index := idx + i, text := joinSp g,
                 start_ms := resolveStartMs spans f1 cs.1,
                 end_ms := resolveEndMs spans f2 cs.2,
                 metadata := { video_id := v, video_title := t,
                               timestamp_link :=
                                 generateTimestampLink v (resolveStartMs spans f1 cs.1) } } := by
  intro groups
  induction groups with
  | nil => intro pos idx i ch h; simp [mkChunks] at h
  | cons g gs ih =>
    intro pos idx i ch h
    match i with
    | 0 =>
      rw [mkChunks, List.getElem?_cons_zero] at h
      injection h with h
      refine ⟨g, _, List.getElem?_cons_zero, List.getElem?_cons_zero, rfl, ?_⟩
      rw [← h]
      rfl
    | i + 1 =>
      rw [mkChunks, List.getElem?_cons_succ] at h
      obtain ⟨g', cs', hg', hcs', hlen', hch'⟩ := ih _ _ i ch h
      refine ⟨g', cs', by rw [List.getElem?_cons_succ]; exact hg',
        by rw [chunkCharSpans, List.getElem?_cons_succ]; exact hcs', hlen', ?_⟩
      rw [hch']
      have : idx + 1 + i = idx + (i + 1) := by omega
      rw [this]

/-! ### Helper lemmas: non-emptiness -/

theorem joinSp_ne_nil : ∀ (g : List (List Char)), g ≠ [] → (∀ s ∈ g, s ≠ []) →
    joinSp g ≠ [] := by
  intro g hg hs
  cases g with
  | nil => exact absurd rfl hg
  | cons s ss =>
    cases ss with
    | nil => exact hs s (List.mem_cons_self _ _)
    | cons s2 ss2 => simp [joinSp]

theorem sentencesOfText_ne_nil (ft : List Char) :
    ∀ s ∈ sentencesOfText ft, s ≠ [] := by
  intro s hs
  rw [sentencesOfText] at hs
  have := (List.mem_filter.mp hs).2
  simpa using this

theorem groupsOf_mem_mem {α : Type} (k : Nat) (l : List α) :
    ∀ g ∈ groupsOf k l, ∀ x ∈ g, x ∈ l := by
  intro g hg x hx
  rw [← groupsOf_join k l]
  exact List.mem_flatten.mpr ⟨g, hg, hx⟩

theorem fullText_pos (s0 : Segment) (rest : List Segment) :
    0 < (fullText (s0 :: rest)).length := by
  rw [fullText_cons]
  omega

/-! ### Core ordering lemma for the emitted chunk times -/

theorem resolveStartMs_of_find? (spans : List Span) (fb : Int) (c : Nat) (sp : Span)
    (hfs : spans.find? (fun sp => decide (sp.startChar ≤ c ∧ c < sp.endChar)) = some sp)
    (h : sp.startMs ≠ -1) : resolveStartMs spans fb c = sp.startMs := by
  simp only [resolveStartMs, findStartMs_eq_find?, hfs]
  rw [if_neg h]

theorem resolveEndMs_of_find? (spans : List Span) (fb : Int) (c : Nat) (sp : Span)
    (hfe : spans.reverse.find? (fun sp => decide (sp.startChar < c)) = some sp)
    (h : sp.endMs ≠ -1) : resolveEndMs spans fb c = sp.endMs := by
  simp only [resolveEndMs, findEndMs_eq_find?, hfe]
  rw [if_neg h]

/-- Under full coverage of `[0, len ft)`, non-negative well-ordered span
times, and non-empty chunk texts, every chunk emitted from a cursor inside
the text satisfies `start_ms <= end_ms`. -/
theorem mkChunks_time_le (ft : List Char) (spans : List Span) (f1 f2 : Int)
    (v t : List Char)
    (Hcov : ∀ c : Nat, c < ft.length → ∃ sp ∈ spans, sp.startChar ≤ c ∧ c < sp.endChar)
    (Hok : ∀ sp ∈ spans, 0 ≤ sp.startMs ∧ sp.startMs ≤ sp.endMs)
    (Hpair : spans.Pairwise (fun a b => a.endMs ≤ b.startMs)) :
    ∀ (groups : List (List (List Char))) (pos idx : Nat),
      (∀ g ∈ groups, joinSp g ≠ []) → pos < ft.length →
      ∀ ch ∈ mkChunks ft spans f1 f2 v t groups pos idx, ch.start_ms ≤ ch.end_ms := by
  intro groups
  induction groups with
  | nil => intro pos idx _ _ ch hch; simp [mkChunks] at hch
  | cons g gs ih =>
    intro pos idx hne hpos ch hch
    have hct : joinSp g ≠ [] := hne g (List.mem_cons_self _ _)
    have hsc : ((findFrom (joinSp g) ft pos).getD pos) < ft.length := by
      cases hf : findFrom (joinSp g) ft pos with
      | none => simpa using hpos
      | some j =>
        have := findFrom_bounds (joinSp g) ft pos j (Nat.le_of_lt hpos) hf
        have hlen : 0 < (joinSp g).length := List.length_pos.mpr hct
        simp only [Option.getD_some]
        omega
    rw [mkChunks] at hch
    rcases List.mem_cons.mp hch with hhead | htail
    · subst hhead
      show resolveStartMs spans f1 ((findFrom (joinSp g) ft pos).getD pos)
        ≤ resolveEndMs spans f2 ((findFrom (joinSp g) ft pos).getD pos + (joinSp g).length)
      set sc := (findFrom (joinSp g) ft pos).getD pos with hscdef
      set ec := sc + (joinSp g).length with hecdef
      -- the covering span of the chunk start
      obtain ⟨spC, hmemC, hC1, hC2⟩ := Hcov sc hsc
      -- the start-time scan finds some qualifying span
      have hfsome : (spans.find?
          (fun sp => decide (sp.startChar ≤ sc ∧ sc < sp.endChar))).isSome := by
        rw [List.find?_isSome]
        exact ⟨spC, hmemC, by simp [hC1, hC2]⟩
      cases hfs : spans.find? (fun sp => decide (sp.startChar ≤ sc ∧ sc < sp.endChar)) with
      | none => rw [hfs] at hfsome; simp at hfsome
      | some spF =>
        have hmemF : spF ∈ spans := List.mem_of_find?_eq_some hfs
        have hpF : spF.startChar ≤ sc ∧ sc < spF.endChar := by
          have := List.find?_some hfs
          simpa using this
        have hokF := Hok spF hmemF
        have hstart : resolveStartMs spans f1 sc = spF.startMs :=
          resolveStartMs_of_find? spans f1 sc spF hfs (by omega)
        -- the end-time scan finds some qualifying span in the reversed list
        have hesome : (spans.reverse.find?
            (fun sp => decide (sp.startChar < ec))).isSome := by
          rw [List.find?_isSome]
          exact ⟨spC, List.mem_reverse.mpr hmemC, by
            simp only [decide_eq_true_eq]
            have hlen : 0 < (joinSp g).length := List.length_pos.mpr hct
            omega⟩
        cases hfe : spans.reverse.find? (fun sp => decide (sp.startChar < ec)) with
        | none => rw [hfe] at hesome; simp at hesome
        | some spL =>
          have hmemL : spL ∈ spans := List.mem_reverse.mp (List.mem_of_find?_eq_some hfe)
          have hokL := Hok spL hmemL
          have hend : resolveEndMs spans f2 ec = spL.endMs :=
            resolveEndMs_of_find? spans f2 ec spL hfe (by omega)
          rw [hstart, hend]
          -- split the reversed list at the found span
          obtain ⟨-, l1, l2, hsplit, hfail⟩ := (List.find?_eq_some).mp hfe
          have hspans : spans = l2.reverse ++ spL :: l1.reverse := by
            have := congrArg List.reverse hsplit
            rw [List.reverse_reverse] at this
            rw [this]
            simp
          -- the start span cannot lie after the end span
          have hmemF2 : spF ∈ l2.reverse ++ spL :: l1.reverse := by rw [← hspans]; exact hmemF
          rcases List.mem_append.mp hmemF2 with hin2 | hin1
          · -- strictly before the end span: use pairwise ordering
            rw [hspans] at Hpair
            obtain ⟨-, -, hcross⟩ := List.pairwise_append.mp Hpair
            have hth : spF.endMs ≤ spL.startMs := hcross spF hin2 spL (List.mem_cons_self _ _)
            omega
          · rcases List.mem_cons.mp hin1 with heqL | hin1
            · rw [heqL]; exact hokL.2
            · -- after the end span: contradicts the reversed-scan failure prefix
              exfalso
              have hq : ¬ (spF.startChar < ec) := by
                simpa using hfail spF (List.mem_reverse.mp hin1)
              have hlen : 0 < (joinSp g).length := List.length_pos.mpr hct
              omega
    · exact ih _ (idx + 1) (fun g' hg' => hne g' (List.mem_cons_of_mem _ hg')) hsc ch htail

/-! ### Remaining helper lemmas -/

theorem findFrom_ge (ct ft : List Char) (pos j : Nat) (h : findFrom ct ft pos = some j) :
    pos ≤ j :=
  (findFromGo_bounds ct (ft.drop pos) pos j h).1

theorem chunkCharSpans_start_ge (ft : List Char) :
    ∀ (groups : List (List (List Char))) (pos : Nat),
      ∀ p ∈ chunkCharSpans ft groups pos, pos ≤ p.1 := by
  intro groups
  induction groups with
  | nil => intro pos p hp; simp [chunkCharSpans] at hp
  | cons g gs ih =>
    intro pos p hp
    have hsc : pos ≤ (findFrom (joinSp g) ft pos).getD pos := by
      cases hf : findFrom (joinSp g) ft pos with
      | none => simp
      | some j => simpa using findFrom_ge (joinSp g) ft pos j hf
    rw [chunkCharSpans] at hp
    rcases List.mem_cons.mp hp with hh | ht
    · subst hh; exact hsc
    · exact Nat.le_trans hsc (ih _ p ht)

theorem chunkCharSpans_chain (ft : List Char) :
    ∀ (groups : List (List (List Char))) (pos : Nat),
      List.Chain' (fun a b => a.1 ≤ b.1) (chunkCharSpans ft groups pos) := by
  intro groups
  induction groups with
  | nil => intro pos; simp [chunkCharSpans]
  | cons g gs ih =>
    intro pos
    rw [chunkCharSpans]
    rw [List.chain'_cons']
    refine ⟨?_, ih _⟩
    intro b hb
    exact chunkCharSpans_start_ge ft gs _ b (List.mem_of_mem_head? hb)

theorem getLastD_mem : ∀ (l : List Segment) (d : Segment), l ≠ [] → l.getLastD d ∈ l := by
  intro l
  induction l with
  | nil => intro d h; exact absurd rfl h
  | cons a l ih =>
    intro d _
    rw [List.getLastD_cons]
    cases hl : l with
    | nil => subst hl; exact List.mem_cons_self _ _
    | cons b t =>
      have := ih a (by simp [hl])
      rw [hl] at this
      exact List.mem_cons_of_mem _ this

theorem lastSeg_mem (segs : List Segment) (h : segs ≠ []) : lastSeg segs ∈ segs :=
  getLastD_mem segs _ h

theorem generateTimestampLink_len11 (vid : List Char) (ms : Int) (h : vid.length = 11) :
    generateTimestampLink vid ms = some (watchUrl vid (Int.fdiv ms 1000)) := by
  rw [generateTimestampLink, if_pos]
  refine ⟨?_, h⟩
  have hne : vid ≠ [] := by intro hc; rw [hc] at h; simp at h
  simpa [List.isEmpty_iff] using hne

theorem generateTimestampLink_ne11 (vid : List Char) (ms : Int) (h : vid.length ≠ 11) :
    generateTimestampLink vid ms = none := by
  rw [generateTimestampLink, if_neg]
  rintro ⟨-, h2⟩
  exact h h2

theorem sentencesOf_nil : sentencesOf [] = [] := rfl

/-! ## Claim theorems -/

/-- C3: for every input segment list, the CharTimeSpan list built in step 1
has one span per segment in input order, span `i` carries segment `i`'s
times and covers exactly `len(text_i) + 1` characters, and the spans are
contiguous, non-overlapping, in ascending `startChar` order, together
covering exactly the half-open range `[0, len(full_text))` with no gaps or
overlaps. -/
theorem spanMap_coverage (segs : List Segment) :
    (charToTimeMap segs 0).length = segs.length
    ∧ contiguousFrom 0 (charToTimeMap segs 0)
    ∧ (∀ (i : Nat) (hi : i < (charToTimeMap segs 0).length) (hs : i < segs.length),
        ((charToTimeMap segs 0).get ⟨i, hi⟩).startMs = (segs.get ⟨i, hs⟩).start_ms
        ∧ ((charToTimeMap segs 0).get ⟨i, hi⟩).endMs = (segs.get ⟨i, hs⟩).end_ms
        ∧ ((charToTimeMap segs 0).get ⟨i, hi⟩).endChar
            = ((charToTimeMap segs 0).get ⟨i, hi⟩).startChar
              + (segs.get ⟨i, hs⟩).text.length + 1)
    ∧ (∀ c : Nat,
        (∃ sp ∈ charToTimeMap segs 0, sp.startChar ≤ c ∧ c < sp.endChar)
          ↔ c < (fullText segs).length)
    ∧ (charToTimeMap segs 0).Pairwise (fun a b => a.endChar ≤ b.startChar) := by
  refine ⟨charToTimeMap_length segs 0, charToTimeMap_contiguous segs 0,
    charToTimeMap_get segs 0, ?_, charToTimeMap_pairwise_char segs 0⟩
  intro c
  constructor
  · rintro ⟨sp, hmem, -, h2⟩
    have := (charToTimeMap_mem_bounds segs 0 sp hmem).2.2
    omega
  · intro hc
    exact charToTimeMap_cov segs 0 c (Nat.zero_le c) (by omega)

/-- C3 witness: the coverage statement instantiated at Scenario A, index 0
and character position 5. -/
theorem spanMap_coverage_witness :
    ((charToTimeMap segsA 0).get ⟨0, by decide⟩).startMs
        = ((segsA.get ⟨0, by decide⟩)).start_ms
    ∧ ((∃ sp ∈ charToTimeMap segsA 0, sp.startChar ≤ 5 ∧ 5 < sp.endChar)
        ↔ 5 < (fullText segsA).length) :=
  ⟨((spanMap_coverage segsA).2.2.1 0 (by decide) (by decide)).1,
   (spanMap_coverage segsA).2.2.2.1 5⟩

/-- C4: with `sentences_per_chunk = k >= 1` and `S` sentences, the number of
emitted chunks is `ceil(S / k)`, the groups partition the sentence list with
every group but the last of size exactly `k` and no group empty, each
chunk's text is its group's sentences joined by single spaces, and
`chunk_index` values are exactly `0..N-1` in order. -/
theorem chunk_grouping_law (k : Nat) (hk : 1 ≤ k) (segs : List Segment)
    (vid vt : List Char) :
    (chunk_transcript k segs vid vt).length = ((sentencesOf segs).length + k - 1) / k
    ∧ (groupsOf k (sentencesOf segs)).flatten = sentencesOf segs
    ∧ (∀ g ∈ groupsOf k (sentencesOf segs), g ≠ [])
    ∧ (∀ (i : Nat) (g : List (List Char)),
        (groupsOf k (sentencesOf segs))[i]? = some g →
        i + 1 < (groupsOf k (sentencesOf segs)).length → g.length = k)
    ∧ (∀ (i : Nat) (ch : Chunk) (g : List (List Char)),
        (chunk_transcript k segs vid vt)[i]? = some ch →
        (groupsOf k (sentencesOf segs))[i]? = some g →
        ch.text = joinSp g ∧ ch.chunk_index = i) := by
  refine ⟨?_, groupsOf_join k _, groupsOf_ne_nil k _,
    fun i g hg hn => groupsOf_get_k k hk _ i g hg hn, ?_⟩
  · cases segs with
    | nil =>
      rw [sentencesOf_nil]
      show (0 : Nat) = (0 + k - 1) / k
      rw [Nat.div_eq_of_lt (by omega)]
    | cons s0 rest =>
      rw [chunk_transcript, mkChunks_length, groupsOf_length k hk]
  · intro i ch g hch hg
    cases segs with
    | nil => simp [chunk_transcript] at hch
    | cons s0 rest =>
      rw [chunk_transcript] at hch
      obtain ⟨g', cs, hg', -, -, hform⟩ := mkChunks_getElem? _ _ _ _ _ _ _ _ _ i ch hch
      rw [hg'] at hg
      injection hg with hgg
      subst hgg
      rw [hform]
      exact ⟨rfl, by simp⟩

/-- C4 witness: the grouping law instantiated at Scenario A with `k = 1`. -/
theorem chunk_grouping_law_witness :
    (chunk_transcript 1 segsA [] []).length = ((sentencesOf segsA).length + 1 - 1) / 1
    ∧ chunkA0.text = joinSp [ ("Hello world.").toList ]
    ∧ chunkA0.chunk_index = 0 := by
  refine ⟨(chunk_grouping_law 1 (by decide) segsA [] []).1, ?_, ?_⟩
  · exact ((chunk_grouping_law 1 (by decide) segsA [] []).2.2.2.2 0 chunkA0
      [ ("Hello world.").toList ] (by decide) (by decide)).1
  · exact ((chunk_grouping_law 1 (by decide) segsA [] []).2.2.2.2 0 chunkA0
      [ ("Hello world.").toList ] (by decide) (by decide)).2

/-- C5 (amended): for every input satisfying the per-segment contract
(non-negative `start_ms`, `end_ms >= start_ms`) whose segments are
additionally time-ordered (every earlier segment's `end_ms` is at most
every later segment's `start_ms`), every emitted chunk satisfies
`end_ms >= start_ms`. -/
theorem chunk_time_ordering (k : Nat) (segs : List Segment) (vid vt : List Char)
    (hok : ∀ s ∈ segs, 0 ≤ s.start_ms ∧ s.start_ms ≤ s.end_ms)
    (hsorted : segs.Pairwise (fun a b => a.end_ms ≤ b.start_ms)) :
    ∀ ch ∈ chunk_transcript k segs vid vt, ch.start_ms ≤ ch.end_ms := by
  cases segs with
  | nil => intro ch hch; simp [chunk_transcript] at hch
  | cons s0 rest =>
    intro ch hch
    rw [chunk_transcript] at hch
    refine mkChunks_time_le (fullText (s0 :: rest)) (charToTimeMap (s0 :: rest) 0)
      _ _ vid vt ?_ ?_ ?_ _ 0 0 ?_ (fullText_pos s0 rest) ch hch
    · intro c hc
      exact charToTimeMap_cov (s0 :: rest) 0 c (Nat.zero_le c) (by omega)
    · intro sp hsp
      obtain ⟨s, hmem, h1, h2⟩ := charToTimeMap_mem_time (s0 :: rest) 0 sp hsp
      rw [h1, h2]
      exact hok s hmem
    · exact charToTimeMap_pairwise_time (s0 :: rest) 0 hsorted
    · intro g hg
      refine joinSp_ne_nil g (groupsOf_ne_nil k _ g hg) ?_
      intro s hs
      exact sentencesOfText_ne_nil _ s (groupsOf_mem_mem k _ g hg s hs)

/-- C5 witness: the amended time-ordering claim applied to Scenario A. -/
theorem chunk_time_ordering_witness : chunkA0.start_ms ≤ chunkA0.end_ms :=
  chunk_time_ordering 1 segsA [] [] (by decide) (by decide) chunkA0 (by decide)

/-- C5 counterexample: `segsUnord` satisfies the claim's stated input
contract (non-empty texts, `start_ms >= 0`, `end_ms >= start_ms` per
segment), yet the single emitted chunk has `start_ms = 100 > 50 = end_ms`. -/
theorem chunk_time_ordering_counterexample :
    (∀ s ∈ segsUnord, s.text ≠ [] ∧ 0 ≤ s.start_ms ∧ s.start_ms ≤ s.end_ms)
    ∧ (chunk_transcript 2 segsUnord [] []).map (fun c => (c.start_ms, c.end_ms))
        = [((100 : Int), (50 : Int))]
    ∧ ¬ ((100 : Int) ≤ 50) := by decide

/-- C1 (amended): for every non-empty segment list none of whose segment
times is the `-1` sentinel (in particular under the input contract), every
emitted chunk's `start_ms` is the `start_ms` of the first CharTimeSpan whose
range contains `chunk_start_char`, and its `end_ms` is the `end_ms` of the
last CharTimeSpan (scanning from the end) whose `start_char <
chunk_end_char`, falling back to the first segment's `start_ms` / last
segment's `end_ms` when no span qualifies.  (`specStartMs` / `specEndMs`
transcribe the spec's words.) -/
theorem chunk_time_resolution (k : Nat) (segs : List Segment) (vid vt : List Char)
    (hne : segs ≠ [])
    (hs : ∀ s ∈ segs, s.start_ms ≠ -1 ∧ s.end_ms ≠ -1) :
    ∀ (i : Nat) (ch : Chunk) (cs : Nat × Nat),
      (chunk_transcript k segs vid vt)[i]? = some ch →
      (chunkCharSpans (fullText segs) (groupsOf k (sentencesOf segs)) 0)[i]? = some cs →
      ch.start_ms = specStartMs (charToTimeMap segs 0) (headSeg segs).start_ms cs.1
      ∧ ch.end_ms = specEndMs (charToTimeMap segs 0) (lastSeg segs).end_ms cs.2 := by
  cases segs with
  | nil => exact absurd rfl hne
  | cons s0 rest =>
    intro i ch cs hch hcs
    rw [chunk_transcript] at hch
    obtain ⟨g, cs', -, hcs', -, hform⟩ := mkChunks_getElem? _ _ _ _ _ _ _ _ _ i ch hch
    rw [hcs'] at hcs
    injection hcs with hcc
    rw [hcc] at hform
    have hstartspec : ∀ sp ∈ charToTimeMap (s0 :: rest) 0, sp.startMs ≠ -1 := by
      intro sp hsp
      obtain ⟨s, hmem, h1, -⟩ := charToTimeMap_mem_time (s0 :: rest) 0 sp hsp
      rw [h1]
      exact (hs s hmem).1
    have hendspec : ∀ sp ∈ charToTimeMap (s0 :: rest) 0, sp.endMs ≠ -1 := by
      intro sp hsp
      obtain ⟨s, hmem, -, h2⟩ := charToTimeMap_mem_time (s0 :: rest) 0 sp hsp
      rw [h2]
      exact (hs s hmem).2
    rw [hform]
    constructor
    · show resolveStartMs (charToTimeMap (s0 :: rest) 0) (headSeg (s0 :: rest)).start_ms cs.1
        = specStartMs (charToTimeMap (s0 :: rest) 0) (headSeg (s0 :: rest)).start_ms cs.1
      exact resolveStartMs_eq_spec _ _ _ hstartspec
    · show resolveEndMs (charToTimeMap (s0 :: rest) 0) (lastSeg (s0 :: rest)).end_ms cs.2
        = specEndMs (charToTimeMap (s0 :: rest) 0) (lastSeg (s0 :: rest)).end_ms cs.2
      exact resolveEndMs_eq_spec _ _ _ hendspec

/-- C1 witness: the amended time-resolution claim applied to Scenario A,
chunk 0, whose char span is `(0, 12)`. -/
theorem chunk_time_resolution_witness :
    chunkA0.start_ms = specStartMs (charToTimeMap segsA 0) (headSeg segsA).start_ms 0
    ∧ chunkA0.end_ms = specEndMs (charToTimeMap segsA 0) (lastSeg segsA).end_ms 12 :=
  chunk_time_resolution 1 segsA [] [] (by decide) (by decide) 0 chunkA0 (0, 12)
    (by decide) (by decide)

/-- C1 counterexample: on `segsNeg` (second segment's `start_ms = -1`) the
second chunk starts at character 3, the first covering span's `start_ms` is
`-1`, yet the emitted chunk's `start_ms` is `5` — the defensive fallback
fires even though a span qualifies, so the claim's unconditional equality
fails. -/
theorem chunk_time_resolution_counterexample :
    (chunk_transcript 1 segsNeg [] []).map Chunk.start_ms = [5, 5]
    ∧ chunkCharSpans (fullText segsNeg) (groupsOf 1 (sentencesOf segsNeg)) 0
        = [(0, 2), (3, 5)]
    ∧ specStartMs (charToTimeMap segsNeg 0) (headSeg segsNeg).start_ms 3 = -1
    ∧ ((5 : Int) ≠ -1) := by decide

/-- C2 (amended): within one chunking call the search cursor never rewinds
below the previous chunk's located *start* offset (the code sets
`last_char_pos = chunk_start_char`), so located start offsets are
non-decreasing across chunks; a successful search returns a position at or
after the cursor, and a failed search falls back to the cursor position. -/
theorem chunk_search_monotone (k : Nat) (segs : List Segment) :
    List.Chain' (fun a b => a.1 ≤ b.1)
      (chunkCharSpans (fullText segs) (groupsOf k (sentencesOf segs)) 0)
    ∧ (∀ (ct ft : List Char) (pos j : Nat), findFrom ct ft pos = some j → pos ≤ j)
    ∧ (∀ (ct ft : List Char) (pos : Nat), findFrom ct ft pos = none →
        (findFrom ct ft pos).getD pos = pos) := by
  refine ⟨chunkCharSpans_chain _ _ 0, fun ct ft pos j h => findFrom_ge ct ft pos j h, ?_⟩
  intro ct ft pos h
  rw [h]
  rfl

/-- C2 witness: the monotone-cursor statement at Scenario A, a successful
search (position 13) and a failed search (fallback to the cursor). -/
theorem chunk_search_monotone_witness :
    List.Chain' (fun a b => a.1 ≤ b.1)
      (chunkCharSpans (fullText segsA) (groupsOf 1 (sentencesOf segsA)) 0)
    ∧ (0 : Nat) ≤ 13
    ∧ (findFrom (("zz").toList) (fullText segsA) 0).getD 0 = 0 :=
  ⟨(chunk_search_monotone 1 segsA).1,
   (chunk_search_monotone 1 segsA).2.1 (("This is a test.").toList) (fullText segsA) 0 13
     (by decide),
   (chunk_search_monotone 1 segsA).2.2 (("zz").toList) (fullText segsA) 0 (by decide)⟩

/-- C2 counterexample: with the duplicate-sentence input `segsDup` and
`k = 1`, the second chunk's located start offset (0) is *earlier* than the
first chunk's end offset (2): the search for the second chunk starts at the
previous chunk's start offset, not its end offset. -/
theorem chunk_search_monotone_counterexample :
    chunkCharSpans (fullText segsDup) (groupsOf 1 (sentencesOf segsDup)) 0
        = [(0, 2), (0, 2)]
    ∧ ¬ List.Chain' (fun a b => a.2 ≤ b.1)
        (chunkCharSpans (fullText segsDup) (groupsOf 1 (sentencesOf segsDup)) 0) := by
  have h : chunkCharSpans (fullText segsDup) (groupsOf 1 (sentencesOf segsDup)) 0
      = [(0, 2), (0, 2)] := by decide
  refine ⟨h, fun hc => ?_⟩
  rw [h] at hc
  exact absurd (List.chain'_cons.mp hc).1 (by decide)

/-- C6: the chunker raises exactly when configured with
`sentences_per_chunk <= 0` (at construction time); every valid call on an
empty segment list returns the empty chunk list without error, and a chunk
is emitted for every sentence group formed (search misses are recovered by
the cursor fallback inside `mkChunks`, never dropped). -/
theorem chunker_failure_semantics :
    (∀ k : Int, (videoChunkerInit k).isOk = false ↔ k ≤ 0)
    ∧ (∀ (k : Nat) (vid vt : List Char), chunk_transcript k [] vid vt = [])
    ∧ (∀ (k : Nat) (segs : List Segment) (vid vt : List Char),
        (chunk_transcript k segs vid vt).length
          = (groupsOf k (sentencesOf segs)).length) := by
  refine ⟨?_, fun k vid vt => rfl, ?_⟩
  · intro k
    rw [videoChunkerInit]
    by_cases h : k ≤ 0
    · simp [h, Except.isOk, Except.toBool]
    · simp [h, Except.isOk, Except.toBool]
  · intro k segs vid vt
    cases segs with
    | nil => rfl
    | cons s0 rest => rw [chunk_transcript, mkChunks_length]

/-- C6 witness: construction fails at `k = 0`, and the empty-input call
returns the empty chunk list. -/
theorem chunker_failure_semantics_witness :
    (videoChunkerInit 0).isOk = false ∧ chunk_transcript 1 [] [] [] = [] :=
  ⟨(chunker_failure_semantics.1 0).mpr (by decide),
   chunker_failure_semantics.2.1 1 [] []⟩

/-- C7: every emitted chunk's `metadata.timestamp_link` is the watch URL
parameterized with `video_id` and `start_ms // 1000` seconds exactly when
`video_id` has 11 characters, and is null for every other length. -/
theorem chunk_timestamp_link (k : Nat) (segs : List Segment) (vid vt : List Char) :
    ∀ ch ∈ chunk_transcript k segs vid vt,
      ch.metadata.timestamp_link = generateTimestampLink vid ch.start_ms
      ∧ (vid.length = 11 →
          ch.metadata.timestamp_link = some (watchUrl vid (Int.fdiv ch.start_ms 1000)))
      ∧ (vid.length ≠ 11 → ch.metadata.timestamp_link = none) := by
  cases segs with
  | nil => intro ch hch; simp [chunk_transcript] at hch
  | cons s0 rest =>
    intro ch hch
    rw [chunk_transcript] at hch
    obtain ⟨i, hi⟩ := List.mem_iff_getElem?.mp hch
    obtain ⟨g, cs, -, -, -, hform⟩ := mkChunks_getElem? _ _ _ _ _ _ _ _ _ i ch hi
    have hlink : ch.metadata.timestamp_link = generateTimestampLink vid ch.start_ms := by
      rw [hform]
    refine ⟨hlink, ?_, ?_⟩
    · intro h11
      rw [hlink, generateTimestampLink_len11 vid ch.start_ms h11]
    · intro hno
      rw [hlink, generateTimestampLink_ne11 vid ch.start_ms hno]

/-- C7 witness: Scenario E — with an 11-character id and `start_ms = 65000`
the link is the concrete watch URL containing `t=65s`; with a 6-character
id it is null. -/
theorem chunk_timestamp_link_witness :
    chunkE0.metadata.timestamp_link
        = some (("https://www.youtube.com/watch?v=ABCDEFGHIJK&t=65s").toList)
    ∧ chunkE0no.metadata.timestamp_link = none := by
  constructor
  · have h := (chunk_timestamp_link 1 segsE vid11 [] chunkE0 (by decide)).2.1 (by decide)
    rw [h]
    decide
  · exact (chunk_timestamp_link 1 segsE vid6 [] chunkE0no (by decide)).2.2 (by decide)

/-- C8: Scenario A — the two-segment input with `sentences_per_chunk = 1`
yields exactly two chunks with the stated texts, times and indices. -/
theorem scenario_a_exact :
    (chunk_transcript 1 segsA [] []).map
        (fun c => (c.text, c.start_ms, c.end_ms, c.chunk_index)) =
      [ ((("Hello world.").toList : List Char), (0 : Int), (1000 : Int), (0 : Nat)),
        ((("This is a test.").toList : List Char), (1000 : Int), (2500 : Int), (1 : Nat)) ] := by
  decide

/-- C9 (amended): the subtitle-track path reports failure (the `None`
triple) exactly when no cues were parsed and never returns an empty segment
sequence as a success; the speech-to-text path, however, returns whatever
segment list it built — including the empty one — as a success-shaped
triple, with no empty-transcript check. -/
theorem normalizer_empty_signal :
    (∀ (parsed : List Segment) (title vid : List Char),
      (onlineTranscriptResult parsed title vid = none ↔ parsed = [])
      ∧ (∀ (segs : List Segment) (t v : List Char),
          onlineTranscriptResult parsed title vid = some (segs, t, v) → segs ≠ []))
    ∧ (∀ (ws : List (List Char × Int × Int)) (title vid : List Char),
        localTranscriptResult ws title vid
          = some (ws.map (fun w =>
              { text := strip w.1, start_ms := w.2.1, end_ms := w.2.2 }), title, vid)) := by
  refine ⟨?_, fun ws title vid => rfl⟩
  intro parsed title vid
  constructor
  · rw [onlineTranscriptResult]
    by_cases h : parsed.isEmpty
    · simp [h, List.isEmpty_iff.mp h]
    · simp [h]
      exact fun hc => by subst hc; simp at h
  · intro segs t v hsome
    rw [onlineTranscriptResult] at hsome
    by_cases h : parsed.isEmpty
    · rw [if_pos h] at hsome; exact absurd hsome (by simp)
    · rw [if_neg h] at hsome
      injection hsome with hsome
      have : parsed = segs := congrArg Prod.fst hsome
      subst this
      simpa [List.isEmpty_iff] using h

/-- C9 witness: the subtitle path signals failure on an empty parse and
success on Scenario A's segments; the speech-to-text path's unconditional
success shape. -/
theorem normalizer_empty_signal_witness :
    onlineTranscriptResult [] [] [] = none
    ∧ segsA ≠ []
    ∧ localTranscriptResult [] [] [] = some ([], [], []) :=
  ⟨(normalizer_empty_signal.1 [] [] []).1.mpr rfl,
   (normalizer_empty_signal.1 segsA [] []).2 segsA [] [] (by decide),
   normalizer_empty_signal.2 [] [] []⟩

/-- C9 counterexample: a speech-to-text run that parses no segments still
yields a success-shaped triple carrying the empty segment sequence, so the
"never returns an empty sequence as a successful result" claim fails on
that path. -/
theorem normalizer_empty_counterexample :
    localTranscriptResult [] (("v").toList) (("id").toList)
        = some ([], ("v").toList, ("id").toList)
    ∧ (some (([] : List Segment), ("v").toList, ("id").toList)
        ≠ (none : Option (List Segment × List Char × List Char))) := by
  decide

/-- C10: every emitted chunk's `start_ms` is the `start_ms` of some input
segment and its `end_ms` the `end_ms` of some input segment (the `-1`
sentinel never survives to the output), so chunk times are non-negative
whenever all input segment times are. -/
theorem chunk_times_from_segments (k : Nat) (segs : List Segment) (vid vt : List Char) :
    ∀ ch ∈ chunk_transcript k segs vid vt,
      (ch.start_ms ∈ segs.map Segment.start_ms ∧ ch.end_ms ∈ segs.map Segment.end_ms)
      ∧ ((∀ s ∈ segs, 0 ≤ s.start_ms ∧ 0 ≤ s.end_ms) →
          0 ≤ ch.start_ms ∧ 0 ≤ ch.end_ms) := by
  cases segs with
  | nil => intro ch hch; simp [chunk_transcript] at hch
  | cons s0 rest =>
    intro ch hch
    rw [chunk_transcript] at hch
    obtain ⟨i, hi⟩ := List.mem_iff_getElem?.mp hch
    obtain ⟨g, cs, -, -, -, hform⟩ := mkChunks_getElem? _ _ _ _ _ _ _ _ _ i ch hi
    have hstart : ch.start_ms ∈ (s0 :: rest).map Segment.start_ms := by
      have hsm : ch.start_ms
          = resolveStartMs (charToTimeMap (s0 :: rest) 0) (headSeg (s0 :: rest)).start_ms cs.1 := by
        rw [hform]
      rcases resolveStartMs_mem (charToTimeMap (s0 :: rest) 0)
          (headSeg (s0 :: rest)).start_ms cs.1 with hfb | ⟨sp, hmem, heq⟩
      · rw [hsm, hfb]
        exact List.mem_map.mpr ⟨s0, List.mem_cons_self _ _, rfl⟩
      · obtain ⟨s, hsmem, h1, -⟩ := charToTimeMap_mem_time (s0 :: rest) 0 sp hmem
        rw [hsm, heq, h1]
        exact List.mem_map.mpr ⟨s, hsmem, rfl⟩
    have hend : ch.end_ms ∈ (s0 :: rest).map Segment.end_ms := by
      have hem : ch.end_ms
          = resolveEndMs (charToTimeMap (s0 :: rest) 0) (lastSeg (s0 :: rest)).end_ms cs.2 := by
        rw [hform]
      rcases resolveEndMs_mem (charToTimeMap (s0 :: rest) 0)
          (lastSeg (s0 :: rest)).end_ms cs.2 with hfb | ⟨sp, hmem, heq⟩
      · rw [hem, hfb]
        exact List.mem_map.mpr ⟨lastSeg (s0 :: rest), lastSeg_mem _ (by simp), rfl⟩
      · obtain ⟨s, hsmem, -, h2⟩ := charToTimeMap_mem_time (s0 :: rest) 0 sp hmem
        rw [hem, heq, h2]
        exact List.mem_map.mpr ⟨s, hsmem, rfl⟩
    refine ⟨⟨hstart, hend⟩, ?_⟩
    intro hnn
    constructor
    · obtain ⟨s, hsmem, hval⟩ := List.mem_map.mp hstart
      rw [← hval]
      exact (hnn s hsmem).1
    · obtain ⟨s, hsmem, hval⟩ := List.mem_map.mp hend
      rw [← hval]
      exact (hnn s hsmem).2

/-- C10 witness: Scenario A's chunk 0 draws its times from the input
segments and they are non-negative. -/
theorem chunk_times_from_segments_witness :
    (chunkA0.start_ms ∈ segsA.map Segment.start_ms
      ∧ chunkA0.end_ms ∈ segsA.map Segment.end_ms)
    ∧ (0 ≤ chunkA0.start_ms ∧ 0 ≤ chunkA0.end_ms) := by
  have h := chunk_times_from_segments 1 segsA [] [] chunkA0 (by decide)
  exact ⟨h.1, h.2 (by decide)⟩

end VideoChunks
